import Mathlib

/-!
Formal model of the tabular query pipeline of the covid_deaths dashboard
(`app.py`) and its diagnostic CLI (`scripts/check_data.py`).

A loaded dataset is a list of `Row` records.  The pandas operations used by
the dashboard are modelled as follows:

* `df.sort_values("date")` — ascending on the `date` column, null dates
  (`NaT`, here `Option.none`) last.  The default `kind="quicksort"` is
  documented as unstable, so the relative order of rows tying on a non-null
  date is not specified; what pandas does guarantee (`nargsort`) is that
  the null-date rows are appended after the sorted rows in their original
  input order.  The contract is captured relationally by
  `SortValuesAdmissible`; `sortValuesDate` (Mathlib's stable
  `List.insertionSort`) is one admissible implementation, adequate for the
  facts that depend only on the guaranteed null block.
* `groupby("location").tail(1)` — keep, for every location, the last row of
  that location in the current order (`tailPerGroup`).
* boolean-mask filters (`df[mask]`) — `List.filter`.
* `Series.max`, `groupby(...).max()` — maxima that skip nulls.
* `nlargest(n)` — drop nulls, stable descending sort, take `n`.
* `df.corr()` — Pearson correlation; sums of products of deviations are
  computed over `ℚ` and the final quotient with its square roots over `ℝ`.

Machine floats are idealised as exact rationals/reals; dates are idealised
as `Option Nat` (a null date is `none`, mirroring pandas `NaT`).
-/

namespace CovidDash

/-! ## Generic lemmas about the stable sort and about last elements -/

section SortLemmas

variable {α : Type} {r : α → α → Prop} [DecidableRel r]

theorem orderedInsert_eq_cons (x : α) (l : List α) (h : ∀ y ∈ l, r x y) :
    l.orderedInsert r x = x :: l := by
  cases l with
  | nil => rfl
  | cons y ys => simp [List.orderedInsert, h y (List.mem_cons_self y ys)]

theorem filter_orderedInsert_neg (p : α → Bool) (x : α) (hx : p x = false)
    (l : List α) : (l.orderedInsert r x).filter p = l.filter p := by
  induction l with
  | nil => simp [List.orderedInsert, hx]
  | cons y ys ih =>
    by_cases hxy : r x y
    · simp [List.orderedInsert, hxy, hx]
    · simp only [List.orderedInsert, if_neg hxy, List.filter_cons]
      cases hpy : p y <;> simp [ih, hpy]

theorem filter_orderedInsert_pos [IsTrans α r] (p : α → Bool) (x : α)
    (hx : p x = true) (l : List α) (hl : l.Sorted r) :
    (l.orderedInsert r x).filter p = (l.filter p).orderedInsert r x := by
  induction l with
  | nil => simp [List.orderedInsert, hx]
  | cons y ys ih =>
    have hy : ∀ b ∈ ys, r y b := List.rel_of_sorted_cons hl
    by_cases hxy : r x y
    · have hall : ∀ z ∈ (y :: ys).filter p, r x z := by
        intro z hz
        have hz' : z ∈ y :: ys := List.mem_of_mem_filter hz
        rcases List.mem_cons.mp hz' with rfl | hz''
        · exact hxy
        · exact IsTrans.trans x y z hxy (hy z hz'')
      rw [show (y :: ys).orderedInsert r x = x :: y :: ys by
            simp [List.orderedInsert, hxy]]
      rw [orderedInsert_eq_cons x _ hall]
      simp [List.filter_cons, hx]
    · rw [show (y :: ys).orderedInsert r x = y :: ys.orderedInsert r x by
            simp [List.orderedInsert, hxy]]
      by_cases hpy : p y = true
      · rw [List.filter_cons_of_pos hpy, List.filter_cons_of_pos hpy,
          ih hl.of_cons]
        rw [show (y :: ys.filter p).orderedInsert r x
              = y :: (ys.filter p).orderedInsert r x by
            simp [List.orderedInsert, hxy]]
      · rw [List.filter_cons_of_neg (by simpa using hpy),
          List.filter_cons_of_neg (by simpa using hpy), ih hl.of_cons]

theorem filter_insertionSort [IsTotal α r] [IsTrans α r] (p : α → Bool)
    (l : List α) : (l.insertionSort r).filter p = (l.filter p).insertionSort r := by
  induction l with
  | nil => simp
  | cons x xs ih =>
    show ((xs.insertionSort r).orderedInsert r x).filter p = _
    by_cases hx : p x = true
    · rw [filter_orderedInsert_pos p x hx _ (List.sorted_insertionSort r xs), ih]
      simp [List.filter_cons, hx, List.insertionSort]
    · rw [filter_orderedInsert_neg p x (by simpa using hx), ih]
      simp [List.filter_cons, hx]

end SortLemmas

/-- Last element of a list as an `Option` (the row `tail(1)` keeps). -/
def lastO {α : Type} : List α → Option α
  | [] => none
  | [a] => some a
  | _ :: b :: l => lastO (b :: l)

theorem lastO_cons_cons {α : Type} (a b : α) (l : List α) :
    lastO (a :: b :: l) = lastO (b :: l) := rfl

theorem lastO_eq_none_iff {α : Type} : ∀ {l : List α}, lastO l = none ↔ l = [] := by
  intro l
  induction l with
  | nil => simp [lastO]
  | cons a t ih =>
    cases t with
    | nil => simp [lastO]
    | cons b t2 => rw [lastO_cons_cons]; simp [ih]

theorem lastO_mem {α : Type} : ∀ {l : List α} {x : α}, lastO l = some x → x ∈ l := by
  intro l
  induction l with
  | nil => intro x h; cases h
  | cons a t ih =>
    intro x h
    cases t with
    | nil =>
      simp only [lastO, Option.some.injEq] at h
      simp [h]
    | cons b t2 =>
      rw [lastO_cons_cons] at h
      exact List.mem_cons_of_mem a (ih h)

theorem lastO_cons_of_ne_nil {α : Type} (a : α) {l : List α} (h : l ≠ []) :
    lastO (a :: l) = lastO l := by
  cases l with
  | nil => exact absurd rfl h
  | cons b t => rfl

theorem lastO_filter {α : Type} (p : α → Bool) :
    ∀ {l : List α} {x : α}, lastO l = some x → p x = true →
      lastO (l.filter p) = some x := by
  intro l
  induction l with
  | nil => intro x h; cases h
  | cons a t ih =>
    intro x h hpx
    cases t with
    | nil =>
      simp only [lastO, Option.some.injEq] at h
      subst h
      simp [List.filter_cons, hpx, lastO]
    | cons b t2 =>
      rw [lastO_cons_cons] at h
      have htail : lastO ((b :: t2).filter p) = some x := ih h hpx
      have hne : (b :: t2).filter p ≠ [] := by
        intro hnil
        rw [hnil] at htail
        cases htail
      rw [List.filter_cons]
      cases hpa : p a
      · simpa using htail
      · simpa [lastO_cons_of_ne_nil a hne] using htail

theorem sorted_lastO_max {α : Type} {r : α → α → Prop} (hrefl : ∀ a, r a a) :
    ∀ {l : List α} {x : α}, l.Sorted r → lastO l = some x → ∀ a ∈ l, r a x := by
  intro l
  induction l with
  | nil => intro x _ h; cases h
  | cons a t ih =>
    intro x hs h c hc
    cases t with
    | nil =>
      simp only [lastO, Option.some.injEq] at h
      subst h
      have : c = a := by simpa using hc
      subst this
      exact hrefl c
    | cons b t2 =>
      rw [lastO_cons_cons] at h
      rcases List.mem_cons.mp hc with rfl | hc'
      · exact List.rel_of_sorted_cons hs x (lastO_mem h)
      · exact ih hs.of_cons h c hc'

/-! ## Data model

A `Row` is one record of the loaded dataset with the columns the dashboard
reads: `location`, `iso_code`, the coerced `date` (null dates are `none`)
and the numeric metric column `total_cases` (missing values are `none`). -/

structure Row where
  location : String
  iso_code : String
  date : Option Nat
  total_cases : Option ℚ
deriving DecidableEq

/-- pandas comparison order on dates used by `sort_values("date")`:
ascending, and a null date (`NaT`) sorts after every actual date
(`na_position="last"`). -/
def dle : Option Nat → Option Nat → Bool
  | _, none => true
  | none, some _ => false
  | some a, some b => decide (a ≤ b)

theorem dle_refl (x : Option Nat) : dle x x = true := by
  cases x <;> simp [dle]

theorem dle_total (x y : Option Nat) : dle x y = true ∨ dle y x = true := by
  cases x <;> cases y <;> simp [dle, decide_eq_true_iff]
  exact Nat.le_total _ _

theorem dle_trans (x y z : Option Nat) (h1 : dle x y = true)
    (h2 : dle y z = true) : dle x z = true := by
  cases z with
  | none => cases x <;> simp [dle]
  | some c =>
    cases y with
    | none => simp [dle] at h2
    | some b =>
      cases x with
      | none => simp [dle] at h1
      | some a =>
        simp only [dle, decide_eq_true_iff] at h1 h2 ⊢
        exact Nat.le_trans h1 h2

/-- Row order used by `df.sort_values(date_col)`. -/
def rowLe (r s : Row) : Prop := dle r.date s.date = true

instance : DecidableRel rowLe :=
  fun a b => inferInstanceAs (Decidable (dle a.date b.date = true))

instance : IsTotal Row rowLe := ⟨fun a b => dle_total a.date b.date⟩

instance : IsTrans Row rowLe :=
  ⟨fun a b c hab hbc => dle_trans a.date b.date c.date hab hbc⟩

theorem rowLe_refl (a : Row) : rowLe a a := dle_refl a.date

/-! ## Pipeline operations, translated from `app.py` -/

/-- One admissible implementation of `df.sort_values(date_col)`: ascending
on `date`, nulls last (see `SortValuesAdmissible` for the actual contract
of the default unstable quicksort). -/
def sortValuesDate (l : List Row) : List Row := l.insertionSort rowLe

/-- The documented contract of `df.sort_values(date_col)` with the default
`kind="quicksort"`: the output is some permutation of the input, ascending
in the null-last date order; the relative order of rows tying on a non-null
date is NOT specified (the sort is unstable).  What pandas does specify
(`nargsort`) is that the null-date rows come last, in their original input
order, so the output's null block equals the input's null subsequence. -/
def SortValuesAdmissible (input output : List Row) : Prop :=
  List.Perm input output ∧
  output.Pairwise rowLe ∧
  output.filter (fun r => decide (r.date = none))
    = input.filter (fun r => decide (r.date = none))

/-- `groupby("location").tail(1)` on an already ordered frame: keep a row
iff no later row has the same `location`. -/
def tailPerGroup : List Row → List Row
  | [] => []
  | r :: rs =>
    if rs.any (fun s => s.location == r.location) then tailPerGroup rs
    else r :: tailPerGroup rs

/-- `latest = df.sort_values(date_col).groupby("location").tail(1)`
(the map's last-row-per-location table, app.py line 206). -/
def latestPerLocation (l : List Row) : List Row :=
  tailPerGroup (sortValuesDate l)

/-- `country_df = df[df["location"] == country]` (app.py line 39). -/
def sliceByLocation (l : List Row) (country : String) : List Row :=
  l.filter (fun r => r.location == country)

/-- `df = df[df["location"].isin(locations)]` (app.py line 177). -/
def filterBySelection (l : List Row) (locations : List String) : List Row :=
  l.filter (fun r => decide (r.location ∈ locations))

/-- `df[(df[date_col] >= start) & (df[date_col] <= end)]`: pandas comparisons
with `NaT` are false, so null dates are dropped (app.py lines 179-183). -/
def filterByDateRange (l : List Row) (dstart dend : Nat) : List Row :=
  l.filter (fun r =>
    match r.date with
    | some d => decide (dstart ≤ d ∧ d ≤ dend)
    | none => false)

/-- `df["date"].max()`: maximum of the date column, skipping nulls;
`NaT` when no actual date exists. -/
def maxDateOf (l : List Row) : Option Nat :=
  l.foldr
    (fun r acc =>
      match r.date, acc with
      | none, acc => acc
      | some d, none => some d
      | some d, some m => some (max d m))
    none

/-- `latest_df = df[df["date"] == latest_date]` (app.py line 120); an
equality comparison against `NaT` is false in pandas, so rows with a null
date never match, and nothing matches when the whole column is null. -/
def latestDf (l : List Row) : List Row :=
  l.filter (fun r =>
    match r.date, maxDateOf l with
    | some d, some m => d == m
    | _, _ => false)

/-- The distinct group keys of `groupby("location")` in the order pandas
yields them (`sort=True`: ascending by name). -/
def groupKeys (l : List Row) : List String :=
  ((l.map Row.location).dedup).insertionSort (· ≤ ·)

/-- `groupby("location")["total_cases"].max()` for one group: maximum of the
non-null metric values, `NaN` (here `none`) when the group has none. -/
def groupMaxMetric (l : List Row) (ℓ : String) : Option ℚ :=
  ((l.filter (fun r => r.location == ℓ)).filterMap Row.total_cases).foldr
    (fun v acc =>
      match acc with
      | none => some v
      | some m => some (max v m))
    none

/-- Descending-by-value order on aggregated `(location, value)` pairs, as
used by `Series.nlargest` (stable: ties keep first-encountered order). -/
def valGe (a b : String × ℚ) : Prop := b.2 ≤ a.2

instance : DecidableRel valGe := fun a b => inferInstanceAs (Decidable (b.2 ≤ a.2))

instance : IsTotal (String × ℚ) valGe := ⟨fun a b => le_total b.2 a.2⟩

instance : IsTrans (String × ℚ) valGe :=
  ⟨fun _ _ _ hab hbc => le_trans hbc hab⟩

/-- `latest_df.groupby("location")["total_cases"].max()`: one aggregated
value per group key, in the groupby key order. -/
def aggSeries (l : List Row) : List (String × Option ℚ) :=
  (groupKeys l).map (fun ℓ => (ℓ, groupMaxMetric l ℓ))

/-- The non-null entries of the aggregated series (`nlargest` ignores
`NaN` values). -/
def nlargestInput (l : List Row) : List (String × ℚ) :=
  (aggSeries l).filterMap (fun p => p.2.map (fun v => (p.1, v)))

/-- `top10 = latest_df.groupby("location")["total_cases"].max().nlargest(n).reset_index()`
(app.py line 122, with the hard-coded `n = 10` generalised): restrict to the
dataset-wide maximum date, aggregate the metric per location, drop null
aggregates, sort descending by value (stable, ties keep series order) and
keep the first `n`. -/
def topNByMetric (l : List Row) (n : Nat) : List (String × ℚ) :=
  ((nlargestInput (latestDf l)).insertionSort valGe).take n

/-! ## Characterisation of `latestPerLocation` -/

theorem tailPerGroup_sublist (s : List Row) : List.Sublist (tailPerGroup s) s := by
  induction s with
  | nil => simp [tailPerGroup]
  | cons r rs ih =>
    by_cases hany : rs.any (fun t => t.location == r.location) = true
    · rw [show tailPerGroup (r :: rs) = tailPerGroup rs by simp [tailPerGroup, hany]]
      exact List.Sublist.cons r ih
    · rw [show tailPerGroup (r :: rs) = r :: tailPerGroup rs by
          simp [tailPerGroup, hany]]
      exact List.Sublist.cons₂ r ih

theorem tailPerGroup_nodup (s : List Row) :
    ((tailPerGroup s).map Row.location).Nodup := by
  induction s with
  | nil => simp [tailPerGroup]
  | cons r rs ih =>
    by_cases hany : rs.any (fun t => t.location == r.location) = true
    · rw [show tailPerGroup (r :: rs) = tailPerGroup rs by simp [tailPerGroup, hany]]
      exact ih
    · rw [show tailPerGroup (r :: rs) = r :: tailPerGroup rs by
          simp [tailPerGroup, hany]]
      simp only [List.map_cons, List.nodup_cons]
      refine ⟨?_, ih⟩
      intro hmem
      rcases List.mem_map.mp hmem with ⟨t, ht, hloc⟩
      have ht' : t ∈ rs := (tailPerGroup_sublist rs).subset ht
      exact hany (List.any_eq_true.mpr ⟨t, ht', by simp [hloc]⟩)

theorem tailPerGroup_filter (s : List Row) (ℓ : String) :
    (tailPerGroup s).filter (fun r => r.location == ℓ)
      = (lastO (s.filter (fun r => r.location == ℓ))).toList := by
  induction s with
  | nil => rfl
  | cons r rs ih =>
    by_cases hany : rs.any (fun t => t.location == r.location) = true
    · rw [show tailPerGroup (r :: rs) = tailPerGroup rs by simp [tailPerGroup, hany]]
      by_cases hr : r.location = ℓ
      · obtain ⟨t, ht, htloc⟩ := List.any_eq_true.mp hany
        have htp : (fun x => x.location == ℓ) t = true := by
          simp only [beq_iff_eq] at htloc ⊢
          rw [htloc, hr]
        have hne : rs.filter (fun x => x.location == ℓ) ≠ [] := by
          intro hnil
          have hmem : t ∈ rs.filter (fun x => x.location == ℓ) :=
            List.mem_filter.mpr ⟨ht, htp⟩
          rw [hnil] at hmem
          exact absurd hmem (List.not_mem_nil t)
        rw [ih, List.filter_cons_of_pos (by simp [hr]),
          lastO_cons_of_ne_nil r hne]
      · rw [ih, List.filter_cons_of_neg (by simp [hr])]
    · rw [show tailPerGroup (r :: rs) = r :: tailPerGroup rs by
          simp [tailPerGroup, hany]]
      by_cases hr : r.location = ℓ
      · have hfrs : rs.filter (fun x => x.location == ℓ) = [] := by
          rw [List.filter_eq_nil_iff]
          intro t ht
          simp only [beq_iff_eq]
          intro hteq
          exact hany (List.any_eq_true.mpr ⟨t, ht, by simp [hteq, hr]⟩)
        have htail : (tailPerGroup rs).filter (fun x => x.location == ℓ) = [] := by
          rw [ih, hfrs]
          rfl
        rw [List.filter_cons_of_pos (by simp [hr]), htail,
          List.filter_cons_of_pos (by simp [hr]), hfrs]
        rfl
      · rw [List.filter_cons_of_neg (by simp [hr]), ih,
          List.filter_cons_of_neg (by simp [hr])]

/-- The rows of `latestPerLocation` with a given location are exactly the
last element of the stably date-sorted group of that location. -/
theorem latest_filter (rows : List Row) (ℓ : String) :
    (latestPerLocation rows).filter (fun r => r.location == ℓ)
      = (lastO ((rows.filter (fun r => r.location == ℓ)).insertionSort rowLe)).toList := by
  unfold latestPerLocation sortValuesDate
  rw [tailPerGroup_filter, filter_insertionSort]

theorem latest_lastO_of_mem (rows : List Row) {r0 : Row} {ℓ : String}
    (h : r0 ∈ rows) (hloc : r0.location = ℓ) :
    ∃ x, lastO ((rows.filter (fun t => t.location == ℓ)).insertionSort rowLe) = some x := by
  have hmem : r0 ∈ rows.filter (fun t => t.location == ℓ) :=
    List.mem_filter.mpr ⟨h, by simp [hloc]⟩
  have hne : (rows.filter (fun t => t.location == ℓ)).insertionSort rowLe ≠ [] := by
    intro hnil
    have hmem' := (List.mem_insertionSort rowLe).mpr hmem
    rw [hnil] at hmem'
    exact absurd hmem' (List.not_mem_nil r0)
  cases hx : lastO ((rows.filter (fun t => t.location == ℓ)).insertionSort rowLe) with
  | none => exact absurd (lastO_eq_none_iff.mp hx) hne
  | some x => exact ⟨x, rfl⟩

theorem lastO_sort_ties (g : List Row) (x : Row)
    (h : lastO (g.insertionSort rowLe) = some x) :
    lastO (g.filter (fun s => dle x.date s.date)) = some x := by
  have hsorted := List.sorted_insertionSort rowLe g
  have hmax : ∀ a ∈ g, rowLe a x := fun a ha =>
    sorted_lastO_max rowLe_refl hsorted h a ((List.mem_insertionSort rowLe).mpr ha)
  have hties : ∀ a ∈ g.filter (fun s => dle x.date s.date),
      ∀ b ∈ g.filter (fun s => dle x.date s.date), rowLe a b := by
    intro a ha b hb
    have ha' := List.mem_filter.mp ha
    have hb' := List.mem_filter.mp hb
    have hax : rowLe a x := hmax a ha'.1
    have hxb : dle x.date b.date = true := by simpa using hb'.2
    exact dle_trans a.date x.date b.date hax hxb
  have hfilter : (g.insertionSort rowLe).filter (fun s => dle x.date s.date)
      = (g.filter (fun s => dle x.date s.date)).insertionSort rowLe :=
    filter_insertionSort _ _
  have heq : (g.filter (fun s => dle x.date s.date)).insertionSort rowLe
      = g.filter (fun s => dle x.date s.date) :=
    List.Sorted.insertionSort_eq (List.pairwise_of_forall_mem_list hties)
  have h3 : lastO ((g.insertionSort rowLe).filter (fun s => dle x.date s.date))
      = some x := lastO_filter _ h (by simpa using dle_refl x.date)
  rw [hfilter, heq] at h3
  exact h3

/-- The unstable sort contract still pins down the whole null block: the
stable `sortValuesDate` is one admissible output of `sort_values`. -/
theorem sortValuesDate_admissible (rows : List Row) :
    SortValuesAdmissible rows (sortValuesDate rows) := by
  refine ⟨(List.perm_insertionSort rowLe rows).symm,
    List.sorted_insertionSort rowLe rows, ?_⟩
  show (rows.insertionSort rowLe).filter _ = _
  rw [filter_insertionSort]
  apply List.Sorted.insertionSort_eq
  apply List.pairwise_of_forall_mem_list
  intro a ha b hb
  have ha' : a.date = none := of_decide_eq_true (List.mem_filter.mp ha).2
  have hb' : b.date = none := of_decide_eq_true (List.mem_filter.mp hb).2
  show dle a.date b.date = true
  rw [ha', hb']
  rfl

def rowTa : Row := ⟨"A", "a1", some 2, none⟩
def rowTb : Row := ⟨"A", "a2", some 2, none⟩
def rowsTie : List Row := [rowTa, rowTb]
def sTie : List Row := [rowTb, rowTa]

/-- Counterexample to claim C1 (as stated): `sort_values` defaults to the
unstable `kind="quicksort"`, so for rows tying on a non-null maximum date
the program does not fix which tied row `tail(1)` keeps.  `sTie` is an
admissible sort output for the two-row input `rowsTie` (a permutation,
ascending, null block trivially preserved), and on it the computation of
app.py line 206 returns `rowTa` — the FIRST tied row of the input — while
the claim demands the last one in input order, `rowTb`. -/
theorem latestPerLocation_tiebreak_not_guaranteed :
    SortValuesAdmissible rowsTie sTie ∧
    tailPerGroup sTie = [rowTa] ∧
    lastO (rowsTie.filter (fun r => r.location == "A")) = some rowTb ∧
    rowTa ≠ rowTb := by
  refine ⟨⟨List.Perm.swap rowTb rowTa [], by decide, by decide⟩,
    by decide, by decide, by decide⟩

/-- Claim C1 (amended): for every admissible output of the unstable sort,
the last-row-per-group computation returns exactly one row per distinct
`location` present in the input; every returned row is a row of the input
and is date-maximal in its group (no row of the same location has a
strictly greater date).  Which of several rows tying on a non-null maximum
date is returned is not determined by the program. -/
theorem latestPerLocation_amended (rows s : List Row)
    (hs : SortValuesAdmissible rows s) :
    ((tailPerGroup s).map Row.location).Nodup ∧
    (∀ ℓ : String, (∃ r ∈ rows, r.location = ℓ) ↔
      (∃ r ∈ tailPerGroup s, r.location = ℓ)) ∧
    (∀ r ∈ tailPerGroup s, r ∈ rows) ∧
    (∀ r ∈ tailPerGroup s, ∀ t ∈ rows,
      t.location = r.location → dle t.date r.date = true) := by
  obtain ⟨hperm, hsorted, -⟩ := hs
  refine ⟨tailPerGroup_nodup s, ?_, ?_, ?_⟩
  · intro ℓ
    constructor
    · rintro ⟨r0, hr0, hloc⟩
      have hr0f : r0 ∈ s.filter (fun t => t.location == ℓ) :=
        List.mem_filter.mpr ⟨hperm.mem_iff.mp hr0, by simp [hloc]⟩
      cases hx : lastO (s.filter (fun t => t.location == ℓ)) with
      | none =>
        rw [lastO_eq_none_iff.mp hx] at hr0f
        exact absurd hr0f (List.not_mem_nil r0)
      | some x =>
        have hfil : (tailPerGroup s).filter (fun t => t.location == ℓ) = [x] := by
          rw [tailPerGroup_filter, hx]
          rfl
        have hxmem : x ∈ (tailPerGroup s).filter (fun t => t.location == ℓ) := by
          rw [hfil]
          exact List.mem_singleton_self x
        have hx' := List.mem_filter.mp hxmem
        exact ⟨x, hx'.1, by simpa using hx'.2⟩
    · rintro ⟨r, hr, hloc⟩
      exact ⟨r, hperm.mem_iff.mpr ((tailPerGroup_sublist s).subset hr), hloc⟩
  · intro r hr
    exact hperm.mem_iff.mpr ((tailPerGroup_sublist s).subset hr)
  · intro r hr t ht hloc
    have hrf : r ∈ (tailPerGroup s).filter (fun u => u.location == r.location) :=
      List.mem_filter.mpr ⟨hr, by simp⟩
    rw [tailPerGroup_filter] at hrf
    have hlast : lastO (s.filter (fun u => u.location == r.location)) = some r := by
      cases hx : lastO (s.filter (fun u => u.location == r.location)) with
      | none =>
        rw [hx] at hrf
        exact absurd hrf (List.not_mem_nil r)
      | some x =>
        rw [hx] at hrf
        have hrx : r = x := by simpa using hrf
        rw [hrx]
    have hsf : (s.filter (fun u => u.location == r.location)).Pairwise rowLe :=
      List.Pairwise.filter _ hsorted
    have hts : t ∈ s.filter (fun u => u.location == r.location) :=
      List.mem_filter.mpr ⟨hperm.mem_iff.mp ht, by simp [hloc]⟩
    exact sorted_lastO_max rowLe_refl hsf hlast t hts

def rowA1 : Row := ⟨"A", "a1", some 1, none⟩
def rowAx : Row := ⟨"A", "a2", some 2, none⟩
def rowAy : Row := ⟨"A", "a3", some 2, none⟩
def rowB1 : Row := ⟨"B", "b1", some 1, none⟩
def rowsC1W : List Row := [rowA1, rowB1, rowAx, rowAy]

/-- Witness for claim C1 (amended) at a concrete dataset that is already
date-sorted (so it is its own admissible sort output). -/
theorem latestPerLocation_amended_witness :
    SortValuesAdmissible rowsC1W rowsC1W ∧
    ((tailPerGroup rowsC1W).map Row.location).Nodup ∧
    rowAy ∈ tailPerGroup rowsC1W ∧
    dle rowAx.date rowAy.date = true := by
  have hadm : SortValuesAdmissible rowsC1W rowsC1W :=
    ⟨List.Perm.refl _, by decide, rfl⟩
  have h := latestPerLocation_amended rowsC1W rowsC1W hadm
  exact ⟨hadm, h.1, by decide,
    h.2.2.2 rowAy (by decide) rowAx (by decide) (by decide)⟩

/-- Claim C10: when a group contains a null-date row, the null dates sort
after every actual date, so the row `latestPerLocation` selects for that
group is the last null-date row of the group in input order, regardless of
how large the group's actual dates are. -/
theorem latestPerLocation_nullDate (rows : List Row) (ℓ : String)
    (h : ∃ r ∈ rows, r.location = ℓ ∧ r.date = none) :
    ∃ x, x ∈ latestPerLocation rows ∧ x.location = ℓ ∧ x.date = none ∧
      lastO ((rows.filter (fun s => s.location == ℓ)).filter
        (fun s => decide (s.date = (none : Option Nat)))) = some x := by
  obtain ⟨r0, hr0, hloc, hdate⟩ := h
  obtain ⟨x, hx⟩ := latest_lastO_of_mem rows hr0 hloc
  have hfil : (latestPerLocation rows).filter (fun t => t.location == ℓ) = [x] := by
    rw [latest_filter, hx]
    rfl
  have hxmem' : x ∈ (latestPerLocation rows).filter (fun t => t.location == ℓ) := by
    rw [hfil]
    exact List.mem_singleton_self x
  have hxmem := List.mem_filter.mp hxmem'
  have hxloc : x.location = ℓ := by simpa using hxmem.2
  have hsorted := List.sorted_insertionSort rowLe (rows.filter (fun t => t.location == ℓ))
  have hr0mem : r0 ∈ (rows.filter (fun t => t.location == ℓ)).insertionSort rowLe :=
    (List.mem_insertionSort rowLe).mpr (List.mem_filter.mpr ⟨hr0, by simp [hloc]⟩)
  have hr0x : dle r0.date x.date = true :=
    sorted_lastO_max rowLe_refl hsorted hx r0 hr0mem
  have hxdate : x.date = none := by
    rw [hdate] at hr0x
    cases hxd : x.date with
    | none => rfl
    | some d =>
      rw [hxd] at hr0x
      simp [dle] at hr0x
  have hties := lastO_sort_ties _ x hx
  have hcongr : (rows.filter (fun t => t.location == ℓ)).filter
        (fun s => dle x.date s.date)
      = (rows.filter (fun t => t.location == ℓ)).filter
        (fun s => decide (s.date = (none : Option Nat))) := by
    apply List.filter_congr
    intro a _
    rw [hxdate]
    cases a.date <;> simp [dle]
  rw [hcongr] at hties
  exact ⟨x, hxmem.1, hxloc, hxdate, hties⟩

def rowN1 : Row := ⟨"A", "n0", some 5, none⟩
def rowN2 : Row := ⟨"A", "n1", none, none⟩
def rowN3 : Row := ⟨"A", "n2", none, none⟩
def rowsC10 : List Row := [rowN1, rowN2, rowN3]

/-- Witness for claim C10: group `A` holds a valid date `5` and two
null-date rows; the selected row is the last null-date row. -/
theorem latestPerLocation_nullDate_witness :
    (∃ r ∈ rowsC10, r.location = "A" ∧ r.date = none) ∧
    (∃ x, x ∈ latestPerLocation rowsC10 ∧ x.location = "A" ∧ x.date = none ∧
      lastO ((rowsC10.filter (fun s => s.location == "A")).filter
        (fun s => decide (s.date = (none : Option Nat)))) = some x) :=
  ⟨by decide, latestPerLocation_nullDate rowsC10 "A" (by decide)⟩

/-! ## Claims C2, C4, C5 — the plain filters -/

def rowC2 : Row := ⟨"India", "IND", some 1, none⟩

/-- Counterexample to claim C2: `filterBySelection` is
`df[df["location"].isin(locations)]`; with an empty location set it returns
the empty table instead of failing — no `EmptySelection` error exists
anywhere in the code. -/
theorem filterBySelection_empty_returns_table :
    filterBySelection [rowC2] [] = ([] : List Row) := by decide

/-- Claim C2 (amended): `filterBySelection` with an empty set of locations
never fails; it returns the empty table for every dataset. -/
theorem filterBySelection_emptyLocations (ds : List Row) :
    filterBySelection ds [] = [] := by
  simp [filterBySelection]

def rowD1 : Row := ⟨"A", "d1", some 2, none⟩
def rowD2 : Row := ⟨"A", "d2", some 1, none⟩
def rowsC4 : List Row := [rowD1, rowD2]

/-- Counterexample to claim C4: `country_df = df[df["location"] == country]`
performs no sort, so when the matching rows arrive with descending dates the
slice is not ordered ascending by `date`. -/
theorem sliceByLocation_not_sorted :
    ¬ ((sliceByLocation rowsC4 "A").Pairwise
      (fun r s => dle r.date s.date = true)) := by decide

/-- Claim C4 (amended): `sliceByLocation` returns exactly the rows whose
`location` equals the selected country, as a subsequence of the input — the
input order (hence the relative order of equal dates) is preserved, but no
date sort is applied. -/
theorem sliceByLocation_subseq (ds : List Row) (c : String) :
    List.Sublist (sliceByLocation ds c) ds ∧
    (∀ r : Row, r ∈ sliceByLocation ds c ↔ r ∈ ds ∧ r.location = c) := by
  constructor
  · exact List.filter_sublist ds
  · intro r
    simp [sliceByLocation, List.mem_filter]

/-- Claim C5: slicing by a location that occurs nowhere in the dataset
yields the empty table; the operation is total, it never fails. -/
theorem sliceByLocation_absent (ds : List Row) (c : String)
    (h : ∀ r ∈ ds, r.location ≠ c) : sliceByLocation ds c = [] := by
  simp only [sliceByLocation]
  rw [List.filter_eq_nil_iff]
  intro r hr
  simp [h r hr]

def rowC5 : Row := ⟨"France", "FRA", some 3, none⟩

/-- Witness for claim C5 at a concrete dataset and absent location. -/
theorem sliceByLocation_absent_witness :
    (∀ r ∈ [rowC5], r.location ≠ "Zed") ∧ sliceByLocation [rowC5] "Zed" = [] :=
  ⟨by decide, sliceByLocation_absent [rowC5] "Zed" (by decide)⟩

/-! ## Claim C8 — the session dataset across the sidebar filter steps

`app.py` keeps a single mutable `df`; the sidebar filter blocks reassign it:
`df = df[df["location"].isin(locations)]` (line 177) and
`df = df[(df[date_col] >= start) & (df[date_col] <= end)]` (line 183). -/

structure Session where
  df : List Row
deriving DecidableEq

/-- The location multiselect step: the code stores the filtered table back
into the session's only dataset variable. -/
def locationFilterStep (locations : List String) (s : Session) : Session :=
  ⟨filterBySelection s.df locations⟩

/-- The date-range step: likewise reassigns the session dataset. -/
def dateFilterStep (dstart dend : Nat) (s : Session) : Session :=
  ⟨filterByDateRange s.df dstart dend⟩

def sess0 : Session :=
  ⟨[⟨"India", "IND", some 1, none⟩, ⟨"United States", "USA", some 1, none⟩]⟩

/-- Counterexample to claim C8: after the location-filter pipeline step the
observed session dataset differs from the dataset before the step, so the
loaded Dataset is not read-only across the interaction flow. -/
theorem locationFilterStep_changes_dataset :
    locationFilterStep ["India"] sess0 ≠ sess0 := by decide

/-- Claim C8 (amended): the filter steps never invent or alter rows — each
one replaces the session dataset by a subsequence of the previous dataset —
but they do replace it, so the dataset after a filter step need not equal
the dataset before it. -/
theorem filterSteps_sublist (locations : List String) (dstart dend : Nat)
    (s : Session) :
    List.Sublist (locationFilterStep locations s).df s.df ∧
    List.Sublist (dateFilterStep dstart dend s).df s.df :=
  ⟨List.filter_sublist _, List.filter_sublist _⟩

/-! ## Claim C3 — `topNByMetric` -/

theorem groupKeys_nodup (l : List Row) : (groupKeys l).Nodup :=
  ((List.perm_insertionSort _ _).nodup_iff).mpr (List.nodup_dedup _)

theorem aggSeries_keys (l : List Row) :
    (aggSeries l).map Prod.fst = groupKeys l := by
  rw [aggSeries, List.map_map]
  exact List.map_id _

theorem keys_filterMap_sublist (series : List (String × Option ℚ)) :
    List.Sublist
      ((series.filterMap (fun p => p.2.map (fun v => (p.1, v)))).map Prod.fst)
      (series.map Prod.fst) := by
  induction series with
  | nil => simp
  | cons p ps ih =>
    cases hp2 : p.2 with
    | none =>
      simp only [List.filterMap_cons, hp2, Option.map_none', List.map_cons]
      exact List.Sublist.cons p.1 ih
    | some v =>
      simp only [List.filterMap_cons, hp2, Option.map_some', List.map_cons]
      exact List.Sublist.cons₂ p.1 ih

/-- Claim C3: `topNByMetric` (restrict to the dataset-wide maximum date,
group by location, take the maximum metric per group, sort descending,
truncate) returns at most `n` rows, sorted descending by the aggregated
value, with pairwise-distinct locations. -/
theorem topNByMetric_spec (rows : List Row) (n : Nat) (hn : 0 < n) :
    (topNByMetric rows n).length ≤ n ∧
    (topNByMetric rows n).Pairwise (fun a b => b.2 ≤ a.2) ∧
    ((topNByMetric rows n).map Prod.fst).Nodup := by
  refine ⟨List.length_take_le n _, ?_, ?_⟩
  · exact List.Pairwise.sublist (List.take_sublist n _)
      (List.sorted_insertionSort valGe _)
  · have h1 : ((aggSeries (latestDf rows)).map Prod.fst).Nodup := by
      rw [aggSeries_keys]
      exact groupKeys_nodup _
    have h2 : ((nlargestInput (latestDf rows)).map Prod.fst).Nodup :=
      List.Nodup.sublist (keys_filterMap_sublist _) h1
    have h3 : (((nlargestInput (latestDf rows)).insertionSort valGe).map
        Prod.fst).Nodup :=
      (((List.perm_insertionSort valGe _).map Prod.fst).nodup_iff).mpr h2
    show ((((nlargestInput (latestDf rows)).insertionSort valGe).take n).map
      Prod.fst).Nodup
    rw [List.map_take]
    exact List.Nodup.sublist (List.take_sublist n _) h3

def rowT1 : Row := ⟨"A", "t1", some 1, some 5⟩
def rowT2 : Row := ⟨"B", "t2", some 2, some 3⟩
def rowT3 : Row := ⟨"C", "t3", some 2, some 7⟩
def rowsC3 : List Row := [rowT1, rowT2, rowT3]

/-- Witness for claim C3 at a concrete dataset with `n = 2`. -/
theorem topNByMetric_spec_witness :
    0 < 2 ∧ (topNByMetric rowsC3 2).length ≤ 2 ∧
    (topNByMetric rowsC3 2).Pairwise (fun a b => b.2 ≤ a.2) ∧
    ((topNByMetric rowsC3 2).map Prod.fst).Nodup := by
  have h := topNByMetric_spec rowsC3 2 (by decide)
  exact ⟨by decide, h.1, h.2.1, h.2.2⟩

/-! ## Claim C6 — `corr = df[numeric_cols].corr()` (app.py line 105)

Pearson correlation over the numeric columns.  The sums of products of
deviations are exact rationals; the final quotient involves square roots
and lives in `ℝ`. -/

def meanQ (l : List ℚ) : ℚ := l.sum / l.length

/-- Sum of products of deviations from the fixed means `mx`, `my`. -/
def sumProd (mx my : ℚ) : List ℚ → List ℚ → ℚ
  | x :: xs, y :: ys => (x - mx) * (y - my) + sumProd mx my xs ys
  | _, _ => 0

def covQ (xs ys : List ℚ) : ℚ := sumProd (meanQ xs) (meanQ ys) xs ys

def varQ (xs : List ℚ) : ℚ := covQ xs xs

/-- Pearson correlation coefficient of two columns. -/
noncomputable def corrR (xs ys : List ℚ) : ℝ :=
  (covQ xs ys : ℝ) / (Real.sqrt (varQ xs) * Real.sqrt (varQ ys))

/-- The correlation matrix entry for columns `i` and `j` of the numeric
column list (out-of-range indices read as the empty column). -/
noncomputable def correlationMatrix (cols : List (List ℚ)) (i j : Nat) : ℝ :=
  corrR (cols.getD i []) (cols.getD j [])

theorem sumProd_comm (mx my : ℚ) :
    ∀ xs ys : List ℚ, sumProd mx my xs ys = sumProd my mx ys xs := by
  intro xs
  induction xs with
  | nil => intro ys; cases ys <;> simp [sumProd]
  | cons x xs ih =>
    intro ys
    cases ys with
    | nil => simp [sumProd]
    | cons y ys =>
      simp only [sumProd, ih]
      ring

theorem covQ_comm (xs ys : List ℚ) : covQ xs ys = covQ ys xs :=
  sumProd_comm _ _ xs ys

theorem sumProd_self_nonneg (m : ℚ) : ∀ xs : List ℚ, 0 ≤ sumProd m m xs xs := by
  intro xs
  induction xs with
  | nil => simp [sumProd]
  | cons x xs ih =>
    simp only [sumProd]
    exact add_nonneg (mul_self_nonneg _) ih

theorem varQ_nonneg (xs : List ℚ) : 0 ≤ varQ xs := sumProd_self_nonneg _ xs

theorem corrR_self (xs : List ℚ) (h : varQ xs ≠ 0) : corrR xs xs = 1 := by
  unfold corrR
  rw [show covQ xs xs = varQ xs from rfl,
    Real.mul_self_sqrt (by exact_mod_cast varQ_nonneg xs), div_self]
  exact_mod_cast h

/-- Claim C6: with at least two numeric columns, the correlation matrix is
symmetric and every diagonal entry of a column with nonzero variance is 1. -/
theorem correlationMatrix_spec (cols : List (List ℚ)) (h2 : 2 ≤ cols.length) :
    (∀ i j : Nat, correlationMatrix cols i j = correlationMatrix cols j i) ∧
    (∀ i : Nat, varQ (cols.getD i []) ≠ 0 → correlationMatrix cols i i = 1) := by
  refine ⟨?_, ?_⟩
  · intro i j
    unfold correlationMatrix corrR
    rw [covQ_comm, mul_comm]
  · intro i hv
    exact corrR_self _ hv

def colsC6 : List (List ℚ) := [[0, 1], [0, 2]]

/-- Witness for claim C6 on two concrete numeric columns. -/
theorem correlationMatrix_spec_witness :
    2 ≤ colsC6.length ∧ varQ (colsC6.getD 0 []) ≠ 0 ∧
    correlationMatrix colsC6 0 1 = correlationMatrix colsC6 1 0 ∧
    correlationMatrix colsC6 0 0 = 1 := by
  have hv : varQ (colsC6.getD 0 []) ≠ 0 := by
    simp [colsC6, varQ, covQ, sumProd, meanQ]
    norm_num
  have h := correlationMatrix_spec colsC6 (by norm_num [colsC6])
  exact ⟨by norm_num [colsC6], hv, h.1 0 1, h.2 0 hv⟩

/-! ## Claim C7 — date coercion at load

`df["date"] = pd.to_datetime(df["date"], errors="coerce")` (app.py
lines 18-19): cell-wise best-effort parsing of the raw `date` strings,
unparseable cells become null, every other cell is untouched and the load
itself cannot fail on a malformed date. -/

/-- A raw record as read from the CSV, before date coercion. -/
structure RawRow where
  location : String
  iso_code : String
  dateRaw : String
  total_cases : Option ℚ
deriving DecidableEq

/-- Split a character list at dashes. -/
def fieldsAux : List Char → List Char → List (List Char)
  | [], acc => [acc.reverse]
  | c :: cs, acc =>
    if c = '-' then acc.reverse :: fieldsAux cs []
    else fieldsAux cs (c :: acc)

def digitsToNat? (cs : List Char) : Option Nat :=
  if cs ≠ [] ∧ cs.all (fun c => c.isDigit) then
    some (cs.foldl (fun n c => n * 10 + (c.toNat - 48)) 0)
  else none

/-- Best-effort ISO `YYYY-MM-DD` date parsing, the successful case of
`pd.to_datetime`; anything that does not look like a calendar date yields
`none` (the coerced null). -/
def parseDate (s : String) : Option Nat :=
  match fieldsAux s.data [] with
  | [y, m, d] =>
    match digitsToNat? y, digitsToNat? m, digitsToNat? d with
    | some yn, some mn, some dn =>
      if 1 ≤ mn ∧ mn ≤ 12 ∧ 1 ≤ dn ∧ dn ≤ 31 then
        some (yn * 10000 + mn * 100 + dn)
      else none
    | _, _, _ => none
  | _ => none

/-- Date coercion of a single record: only the `date` cell changes. -/
def loadRow (r : RawRow) : Row :=
  ⟨r.location, r.iso_code, parseDate r.dateRaw, r.total_cases⟩

/-- The whole-column coercion; total, so the load never fails on a
malformed date cell. -/
def coerceDates (t : List RawRow) : List Row := t.map loadRow

/-- Claim C7: coercion keeps every row (the `date` column is retained and
the load is total); in each row the `date` cell becomes the parse result —
`none` exactly when the raw value is unparseable — and all other cells are
unchanged. -/
theorem coerceDates_spec (t : List RawRow) :
    (coerceDates t).length = t.length ∧
    (∀ (i : Nat) (r : RawRow), t[i]? = some r →
      (coerceDates t)[i]? = some
        { location := r.location, iso_code := r.iso_code,
          date := parseDate r.dateRaw, total_cases := r.total_cases }) := by
  refine ⟨by simp [coerceDates], ?_⟩
  intro i r hir
  rw [coerceDates, List.getElem?_map, hir]
  rfl

def rawGood : RawRow := ⟨"France", "FRA", "2021-01-02", none⟩
def rawBad : RawRow := ⟨"Atlantis", "ATL", "not-a-date", some 3⟩
def rawsC7 : List RawRow := [rawGood, rawBad]

/-- Witness for claim C7: a concrete table with one malformed date cell is
loaded whole; the bad cell becomes null, the other cells survive. -/
theorem coerceDates_spec_witness :
    rawsC7[1]? = some rawBad ∧ parseDate "not-a-date" = none ∧
    (coerceDates rawsC7).length = rawsC7.length ∧
    (coerceDates rawsC7)[1]? = some
      { location := rawBad.location, iso_code := rawBad.iso_code,
        date := parseDate rawBad.dateRaw, total_cases := rawBad.total_cases } := by
  have h := coerceDates_spec rawsC7
  exact ⟨by decide, by decide, h.1, h.2 1 rawBad (by decide)⟩

/-! ## Claim C9 — the diagnostic CLI `scripts/check_data.py` -/

inductive CheckOutcome where
  | okCsv : CheckOutcome
  | okExcel : CheckOutcome
  | errFileNotFound : CheckOutcome
  | errUnsupported : CheckOutcome
  | errReadFailure : CheckOutcome
deriving DecidableEq

/-- Python `str.lower()` as used on the path suffix. -/
def strLower (s : String) : String := ⟨s.data.map Char.toLower⟩

/-- `main()` of scripts/check_data.py as a function of its environment:
whether the path exists, its final extension (`path.suffix`), and whether
the delegated `pd.read_csv` / `pd.read_excel` call succeeds on that file
(`readOk`).  Missing file first (lines 12-14), then the extension dispatch
(lines 16-19) — inside a supported branch a failing read raises an
uncaught exception (`errReadFailure`) — and unsupported extensions last
(lines 20-22). -/
def checkMain (fileExists : Bool) (suffix : String) (readOk : Bool) : CheckOutcome :=
  if fileExists = false then CheckOutcome.errFileNotFound
  else if strLower suffix ∈ [".csv", ".txt"] then
    (if readOk then CheckOutcome.okCsv else CheckOutcome.errReadFailure)
  else if strLower suffix ∈ [".xlsx", ".xls"] then
    (if readOk then CheckOutcome.okExcel else CheckOutcome.errReadFailure)
  else CheckOutcome.errUnsupported

/-- `sys.exit(1)` for the two error prints, the interpreter's non-zero
exit for an uncaught read exception, implicit success otherwise. -/
def exitCode : CheckOutcome → Nat
  | CheckOutcome.okCsv => 0
  | CheckOutcome.okExcel => 0
  | CheckOutcome.errFileNotFound => 1
  | CheckOutcome.errUnsupported => 1
  | CheckOutcome.errReadFailure => 1

/-- Counterexample to claim C9: the claimed equivalence fails in both
directions.  A missing file whose path ends in `.json` exits non-zero but
with the file-not-found message, not the unsupported-format one; and an
existing `.csv` file on which `pd.read_csv` raises exits non-zero although
the file is present and its extension is supported. -/
theorem checkMain_missing_json :
    checkMain false ".json" true = CheckOutcome.errFileNotFound ∧
    CheckOutcome.errFileNotFound ≠ CheckOutcome.errUnsupported ∧
    strLower ".csv" ∈ ([".csv", ".txt", ".xlsx", ".xls"] : List String) ∧
    checkMain true ".csv" false = CheckOutcome.errReadFailure ∧
    exitCode (checkMain true ".csv" false) ≠ 0 := by decide

/-- Claim C9 (amended): the CLI exits non-zero with an error indication
exactly when the file is missing, or its lowercased extension is not
`.csv`/`.txt`/`.xlsx`/`.xls`, or the pandas read of an existing supported
file fails; a `.json` extension gives the unsupported-format outcome when
the file exists (the read is never attempted) and the file-not-found
outcome when it does not. -/
theorem checkMain_spec (fileExists : Bool) (suffix : String) (readOk : Bool) :
    (exitCode (checkMain fileExists suffix readOk) ≠ 0 ↔
      (fileExists = false ∨
        strLower suffix ∉ ([".csv", ".txt", ".xlsx", ".xls"] : List String) ∨
        readOk = false)) ∧
    (strLower suffix = ".json" →
      checkMain true suffix readOk = CheckOutcome.errUnsupported ∧
      checkMain false suffix readOk = CheckOutcome.errFileNotFound) := by
  constructor
  · cases fileExists with
    | false => simp [checkMain, exitCode]
    | true =>
      by_cases h1 : strLower suffix ∈ ([".csv", ".txt"] : List String)
      · have hm : strLower suffix ∈ ([".csv", ".txt", ".xlsx", ".xls"] : List String) := by
          simp only [List.mem_cons, List.not_mem_nil] at h1 ⊢
          tauto
        cases readOk <;> simp [checkMain, exitCode, h1, hm]
      · by_cases h2 : strLower suffix ∈ ([".xlsx", ".xls"] : List String)
        · have hm : strLower suffix ∈ ([".csv", ".txt", ".xlsx", ".xls"] : List String) := by
            simp only [List.mem_cons, List.not_mem_nil] at h2 ⊢
            tauto
          cases readOk <;> simp [checkMain, exitCode, h1, h2, hm]
        · have hm : strLower suffix ∉ ([".csv", ".txt", ".xlsx", ".xls"] : List String) := by
            simp only [List.mem_cons, List.not_mem_nil] at h1 h2 ⊢
            tauto
          simp [checkMain, exitCode, h1, h2, hm]
  · intro hl
    constructor
    · simp [checkMain, hl]
    · rfl

/-- Witness for claim C9 (amended) at the concrete extension `.JSON`
(case-insensitivity included) and at an existing `.csv` file whose read
fails. -/
theorem checkMain_spec_witness :
    strLower ".JSON" = ".json" ∧
    checkMain true ".JSON" true = CheckOutcome.errUnsupported ∧
    checkMain false ".JSON" true = CheckOutcome.errFileNotFound ∧
    exitCode (checkMain true ".csv" false) ≠ 0 := by
  have hl : strLower ".JSON" = ".json" := by decide
  refine ⟨hl, ((checkMain_spec true ".JSON" true).2 hl).1,
    ((checkMain_spec false ".JSON" true).2 hl).2, ?_⟩
  exact (checkMain_spec true ".csv" false).1.mpr (Or.inr (Or.inr rfl))

end CovidDash
